import Mathlib

/-!
Shallow embedding of the Arduino Code Complexity Analyzer
(class CodeComplexityAnalyzer and its aggregation helpers).

Text is modelled as List Char. Each regular-expression based step of the
source is embedded as an executable scanner with the exact matching
semantics of the corresponding pattern; loops over text are given explicit
fuel equal to the text length plus one, which is always sufficient because
every iteration of the original loops consumes at least one character.
-/

set_option maxRecDepth 20000

/-- Whitespace characters matched by the regex class backslash-s
(ASCII range, as used by the analyzer on source files). -/
def pySpace (c : Char) : Bool :=
  c = ' ' || c = '\t' || c = '\n' || c = '\r' || c = '\x0b' || c = '\x0c'

/-- Word characters matched by the regex class backslash-w (ASCII range). -/
def isWordChar (c : Char) : Bool := c.isAlphanum || c = '_'

/-- The double-quote character. -/
def dquote : Char := Char.ofNat 34

/-- The single-quote character. -/
def squote : Char := Char.ofNat 39

/-- Does the list start with the two-character pattern a b. -/
def startsPair (a b : Char) : List Char → Bool
  | x :: y :: _ => x = a && y = b
  | _ => false

/-- Index of the first occurrence of the two-character literal pattern a b,
as found by re.search for the patterns slash-star, star-slash and
slash-slash of the analyzer. -/
def findPair (a b : Char) : List Char → Option Nat
  | [] => none
  | c :: t => if startsPair a b (c :: t) then some 0 else (findPair a b t).map (· + 1)

/-- Whether the two-character pattern a b occurs somewhere in the list. -/
def hasPair (a b : Char) (s : List Char) : Bool := (findPair a b s).isSome

/-- Drop characters up to, but not including, the next newline
(the span consumed by dot-star in a MULTILINE line-comment match). -/
def skipLine : List Char → List Char
  | [] => []
  | c :: t => if c = '\n' then c :: t else skipLine t

/-- Attempt to close a quoted literal opened by quote character q: the body
of the literal admits any character other than q and backslash (including
newline), or a backslash followed by any non-newline character; the match
succeeds at the next unescaped q. Returns the text after the closing quote.
This is the matching semantics of the string-literal regex of
remove_comments_and_strings, which has no successful backtracking paths. -/
def tryStr (q : Char) : List Char → Option (List Char)
  | [] => none
  | c :: t =>
    if c = q then some t
    else if c = '\\' then
      match t with
      | [] => none
      | d :: t2 => if d = '\n' then none else tryStr q t2
    else tryStr q t

/-- re.sub of the quoted-literal pattern for quote q, replacing every match
by an empty literal of two quote characters; scanning is left to right and
a position where no match starts is copied unchanged. Fuel decreases once
per scanned position. -/
def removeStrGo (q : Char) : Nat → List Char → List Char
  | 0, s => s
  | f + 1, s =>
    match s with
    | [] => []
    | c :: t =>
      if c = q then
        match tryStr q t with
        | some rest => q :: q :: removeStrGo q f rest
        | none => c :: removeStrGo q f t
      else c :: removeStrGo q f t

/-- re.sub of the double-quoted string pattern. -/
def removeDq (s : List Char) : List Char := removeStrGo dquote s.length s

/-- re.sub of the single-quoted string pattern. -/
def removeSq (s : List Char) : List Char := removeStrGo squote s.length s

/-- re.sub of the MULTILINE pattern slash-slash dot-star dollar: at each
occurrence of two consecutive slashes the rest of the physical line is
removed, the newline itself is kept. -/
def removeLCGo : Nat → List Char → List Char
  | 0, s => s
  | f + 1, s =>
    match s with
    | [] => []
    | c :: t =>
      if c = '/' ∧ t.head? = some '/' then removeLCGo f (skipLine t)
      else c :: removeLCGo f t

/-- Line-comment removal at sufficient fuel. -/
def removeLC (s : List Char) : List Char := removeLCGo (s.length + 1) s

/-- The while loop of remove_comments_and_strings: repeatedly find the
first opening marker slash-star; if a closing marker star-slash occurs at
or after it, delete through the end of that closing marker and loop,
otherwise truncate the text just before the opening marker and stop. -/
def removeBlockGo : Nat → List Char → List Char
  | 0, s => s
  | f + 1, s =>
    match findPair '/' '*' s with
    | none => s
    | some start =>
      match findPair '*' '/' (s.drop start) with
      | none => s.take start
      | some off => removeBlockGo f (s.take start ++ s.drop (start + off + 2))

/-- Block-comment removal at sufficient fuel. -/
def removeBlock (s : List Char) : List Char := removeBlockGo (s.length + 1) s

/-- CodeComplexityAnalyzer.remove_comments_and_strings: strings replaced by
empty literals, then line comments removed, then block comments removed
with the unterminated-comment truncation fail-safe. -/
def remove_comments_and_strings (content : List Char) : List Char :=
  removeBlock (removeLC (removeSq (removeDq content)))

example : remove_comments_and_strings ("\x22x/*\\\n*/\x22".toList) = "\x22x\x22".toList := by decide

example :
    remove_comments_and_strings (remove_comments_and_strings ("\x22x/*\\\n*/\x22".toList)) =
      "\x22\x22".toList := by decide

example : remove_comments_and_strings ("// /*x\nY".toList) = "\nY".toList := by decide

example : remove_comments_and_strings ("/*a*/ b /*c".toList) = " b ".toList := by decide

/-!
A small backtracking regular-expression engine, used to embed the
function-header pattern, the control-structure patterns and the
comment-line pattern of the analyzer. Alternation prefers its left branch
and the star is greedy, which is the backtracking priority order of the
re module; runs returns the possible suffix-and-capture outcomes of an
anchored match in that priority order, so the head of the list is the
match that re.search or re.match selects at a given start position.
-/

inductive RE where
  | eps : RE
  | lit : Char → RE
  | cls : (Char → Bool) → RE
  | seq : RE → RE → RE
  | alt : RE → RE → RE
  | star : RE → RE
  | grp : RE → RE

/-- All anchored-match outcomes of a pattern against a text, in
backtracking priority order; each outcome is the remaining suffix together
with the capture of the single capturing group, if one was crossed.
A star repetition only continues while its body consumed at least one
character, which is how the re module avoids empty-progress loops. -/
def reRuns : Nat → RE → List Char → List (List Char × Option (List Char))
  | 0, _, _ => []
  | _ + 1, RE.eps, s => [(s, none)]
  | _ + 1, RE.lit c, s =>
    match s with
    | [] => []
    | x :: t => if x = c then [(t, none)] else []
  | _ + 1, RE.cls p, s =>
    match s with
    | [] => []
    | x :: t => if p x then [(t, none)] else []
  | f + 1, RE.seq a b, s =>
    (reRuns f a s).flatMap fun r1 =>
      (reRuns f b r1.1).map fun r2 => (r2.1, r2.2.orElse fun _ => r1.2)
  | f + 1, RE.alt a b, s => reRuns f a s ++ reRuns f b s
  | f + 1, RE.star a, s =>
    ((reRuns f a s).flatMap fun r1 =>
      if r1.1.length < s.length then
        (reRuns f (RE.star a) r1.1).map fun r2 => (r2.1, r2.2.orElse fun _ => r1.2)
      else []) ++ [(s, none)]
  | f + 1, RE.grp a, s =>
    (reRuns f a s).map fun r1 => (r1.1, some (s.take (s.length - r1.1.length)))

/-- Fuel sufficient for any backtracking path of the patterns below. -/
def reFuel (s : List Char) : Nat := 1000 * (s.length + 2)

/-- Sequence of several pattern pieces. -/
def seqList (l : List RE) : RE := l.foldr RE.seq RE.eps

/-- Literal word, matched case-sensitively. -/
def reStr (w : String) : RE := seqList (w.toList.map RE.lit)

/-- Literal word under re.IGNORECASE. -/
def reStrI (w : String) : RE := seqList (w.toList.map fun c => RE.cls fun x => x.toLower = c)

/-- First-to-last alternation of a list of branches. -/
def altList : List RE → RE
  | [] => RE.eps
  | [r] => r
  | r :: rest => RE.alt r (altList rest)

/-- Zero or more whitespace characters. -/
def wsStar : RE := RE.star (RE.cls pySpace)

/-- One or more whitespace characters. -/
def wsPlus : RE := RE.seq (RE.cls pySpace) wsStar

/-- One or more word characters. -/
def wordPlus : RE := RE.seq (RE.cls isWordChar) (RE.star (RE.cls isWordChar))

/-- The dot of the re module: any character except newline. -/
def reDot : RE := RE.cls fun c => !(c = '\n')

/-- Greedy option. -/
def reOpt (r : RE) : RE := RE.alt r RE.eps

/-- The nine control-structure patterns of the analyzer, each paired with
whether it begins with a word-boundary assertion. Keywords are matched
case-insensitively (re.IGNORECASE); re.MULTILINE affects none of them. -/
def control_structures : List (Bool × RE) :=
  [ (true, seqList [reStrI "if", wsStar, RE.lit '(']),
    (true, seqList [reStrI "else", wsPlus, reStrI "if", wsStar, RE.lit '(']),
    (true, seqList [reStrI "while", wsStar, RE.lit '(']),
    (true, seqList [reStrI "for", wsStar, RE.lit '(']),
    (true, seqList [reStrI "do", wsStar, RE.lit '{']),
    (true, seqList [reStrI "switch", wsStar, RE.lit '(']),
    (true, seqList [reStrI "case", wsPlus]),
    (true, seqList [reStrI "catch", wsStar, RE.lit '(']),
    (false, seqList [RE.lit '?', wsStar, RE.star reDot, wsStar, RE.lit ':']) ]

/-- Number of matches returned by re.findall for one pattern: scan left to
right; at a position where the pattern (with its possible word-boundary
assertion, checked against the previous character) matches, count one and
resume after the consumed span; otherwise advance one character. An empty
match counts and advances one character, as in the re module. -/
def findallCount : Nat → Bool → RE → Option Char → List Char → Nat
  | 0, _, _, _, _ => 0
  | f + 1, needB, r, prev, s =>
    let boundaryOk : Bool :=
      !needB || (match prev with
        | none => true
        | some c => !isWordChar c)
    match (if boundaryOk then (reRuns (reFuel s) r s).head? else none) with
    | some (rest, _) =>
      if rest.length < s.length then
        1 + findallCount f needB r ((s.take (s.length - rest.length)).getLast?) rest
      else
        1 + (match s with
          | [] => 0
          | c :: t => findallCount f needB r (some c) t)
    | none =>
      match s with
      | [] => 0
      | c :: t => findallCount f needB r (some c) t

/-- CodeComplexityAnalyzer.calculate_cyclomatic_complexity: one base path
plus the number of findall matches of every control-structure pattern over
the stripped text. -/
def calculate_cyclomatic_complexity (content : List Char) : Nat :=
  let clean := remove_comments_and_strings content
  1 + (control_structures.map fun br =>
    findallCount (clean.length + 1) br.1 br.2 none clean).sum

/-- CodeComplexityAnalyzer.calculate_nesting_depth: walk the stripped text
counting brace depth, clamping the decrement at zero, and return the
maximum depth reached. -/
def calculate_nesting_depth (content : List Char) : Nat :=
  let clean := remove_comments_and_strings content
  (clean.foldl
    (fun st c =>
      if c = '{' then (Nat.max st.1 (st.2 + 1), st.2 + 1)
      else if c = '}' then (st.1, st.2 - 1)
      else st)
    ((0 : Nat), (0 : Nat))).1

example :
    calculate_cyclomatic_complexity ("if (x) \x7b if (y) \x7b z(); \x7d \x7d".toList) = 3 := by
  decide

example :
    calculate_nesting_depth ("if (x) \x7b if (y) \x7b z(); \x7d \x7d".toList) = 2 := by
  decide

example : calculate_cyclomatic_complexity [] = 1 := by decide

example : calculate_cyclomatic_complexity ("a? b : c : d\ne?f:g".toList) = 3 := by decide

/-- One qualifier keyword of the function-header pattern. -/
def qualifierRE : RE :=
  altList [reStr "inline", reStr "static", reStr "virtual", reStr "explicit", reStr "const"]

/-- One return-type token of the function-header pattern: a word, an
optional pointer or reference mark, an optional const, then whitespace. -/
def typeItemRE : RE :=
  seqList [wordPlus,
    reOpt (RE.alt (RE.seq wsStar (RE.lit '*')) (RE.seq wsStar (RE.lit '&'))),
    reOpt (RE.seq wsStar (reStr "const")),
    wsPlus]

/-- The function-header pattern of the analyzer, anchored at the start of a
line (caret with no MULTILINE flag): optional qualifiers, one or more type
tokens, the captured function name, a parameter list free of semicolons,
optional trailing const, override and final, and the opening brace. -/
def function_pattern : RE :=
  seqList [wsStar,
    RE.star (RE.seq qualifierRE wsPlus),
    RE.seq typeItemRE (RE.star typeItemRE),
    RE.grp wordPlus,
    wsStar, RE.lit '(',
    RE.star (RE.cls fun c => !(c = ';')),
    RE.lit ')', wsStar,
    reOpt (RE.seq (reStr "const") wsStar),
    reOpt (RE.seq (reStr "override") wsStar),
    reOpt (RE.seq (reStr "final") wsStar),
    wsStar, RE.lit '{']

/-- re.search of the function-header pattern against one line: the pattern
is anchored, so only a match starting at position zero is possible; the
result is the captured function name. -/
def funcSearch (line : List Char) : Option (List Char) :=
  match (reRuns (reFuel line) function_pattern line).head? with
  | some (_, some nm) => some nm
  | _ => none

/-- The line loop of find_functions, carrying the current open function
name, its running brace depth and the buffered body lines. A header match
opens a capture only when no function is open; while one is open every
line is buffered and the net brace count added, and at depth zero or below
the function is recorded with the Complexity Counter applied to the
buffered body and the buffered line count. -/
def findFunGo :
    List (List Char) → Option (List Char) → Int → List (List Char) →
      List (List Char × Nat × Nat)
  | [], _, _, _ => []
  | line :: rest, cur, bc, buf =>
    match cur, funcSearch line with
    | none, some nm =>
      findFunGo rest (some nm)
        ((line.count '{' : Int) - (line.count '}' : Int)) [line]
    | some nm, _ =>
      let buf2 := buf ++ [line]
      let bc2 := bc + ((line.count '{' : Int) - (line.count '}' : Int))
      if bc2 ≤ 0 then
        (nm, calculate_cyclomatic_complexity (List.intercalate ['\n'] buf2),
          buf2.length) :: findFunGo rest none 0 []
      else findFunGo rest (some nm) bc2 buf2
    | none, none => findFunGo rest none bc buf

/-- CodeComplexityAnalyzer.find_functions: strip the text, split it on
newlines and run the capture loop. -/
def find_functions (content : List Char) : List (List Char × Nat × Nat) :=
  findFunGo ((remove_comments_and_strings content).splitOn '\n') none 0 []

example :
    find_functions ("int add(int a, int b) \x7b return a + b; \x7d".toList) = [] := by
  decide

example :
    find_functions ("int add(int a, int b) \x7b return a + b; \x7d\n".toList) =
      [("add".toList, 1, 2)] := by
  decide

/-- The comment-only-line pattern of count_lines: optional whitespace, an
opening marker, anything on the line, a closing marker, optional trailing
whitespace, anchored at both ends of the string. -/
def fullCommentRE : RE :=
  seqList [wsStar, RE.lit '/', RE.lit '*', RE.star reDot, RE.lit '*', RE.lit '/', wsStar]

/-- re.match of the comment-only-line pattern: an anchored match that ends
at the end of the string, or just before a final newline (the dollar
anchor without MULTILINE). -/
def fullCommentLine (s : List Char) : Bool :=
  (reRuns (reFuel s) fullCommentRE s).any fun r => r.1.isEmpty || r.1 == ['\n']

/-- str.strip of one physical line: whitespace removed at both ends. -/
def pyStrip (s : List Char) : List Char :=
  ((s.dropWhile pySpace).reverse.dropWhile pySpace).reverse

/-- One iteration of the count_lines loop over the state of the three
counters (code, comment, blank) and the inside-block-comment flag, in the
exact decision order of the source: blank first; then a line holding both
markers is a comment only when it is exactly an opening-to-closing comment
line, and code otherwise; then an opening marker sets the flag, a closing
marker clears it, the flag forces comment, a leading double slash is a
comment, and everything else is code. -/
def classifyStep (st : (Nat × Nat × Nat) × Bool) (rawLine : List Char) :
    (Nat × Nat × Nat) × Bool :=
  let line := pyStrip rawLine
  if line.isEmpty then ((st.1.1, st.1.2.1, st.1.2.2 + 1), st.2)
  else if hasPair '/' '*' line && hasPair '*' '/' line then
    if fullCommentLine line then ((st.1.1, st.1.2.1 + 1, st.1.2.2), st.2)
    else ((st.1.1 + 1, st.1.2.1, st.1.2.2), st.2)
  else if hasPair '/' '*' line then ((st.1.1, st.1.2.1 + 1, st.1.2.2), true)
  else if hasPair '*' '/' line then ((st.1.1, st.1.2.1 + 1, st.1.2.2), false)
  else if st.2 then ((st.1.1, st.1.2.1 + 1, st.1.2.2), st.2)
  else if startsPair '/' '/' line then ((st.1.1, st.1.2.1 + 1, st.1.2.2), st.2)
  else ((st.1.1 + 1, st.1.2.1, st.1.2.2), st.2)

/-- CodeComplexityAnalyzer.count_lines on the physical lines of a readable
file: the final (code, comment, blank) counters. -/
def count_lines (lines : List (List Char)) : Nat × Nat × Nat :=
  (lines.foldl classifyStep ((0, 0, 0), false)).1

/-- The physical line list produced by readlines, with the trailing
newline of each line already irrelevant because count_lines strips every
line: the text split on newlines, without the empty piece after a final
newline. -/
def pyReadLines (content : List Char) : List (List Char) :=
  let ls := content.splitOn '\n'
  if ls.getLast? = some [] then ls.dropLast else ls

/-- Floor of a rational number. -/
def ratFloor (x : Rat) : Int := x.num.fdiv (x.den : Int)

/-- Round to the nearest integer, ties to the even integer, as the builtin
round of the Python runtime does. -/
def roundHalfEven (x : Rat) : Int :=
  let f := ratFloor x
  let r := x - (f : Rat)
  if r < 1 / 2 then f
  else if 1 / 2 < r then f + 1
  else if f % 2 = 0 then f else f + 1

/-- round(x, 2): round to the nearest hundredth, ties to even. The source
rounds binary floating-point values; the model rounds the exact rational. -/
def pyRound2 (x : Rat) : Rat := (roundHalfEven (x * 100) : Rat) / 100

/-- statistics.mean of a list of naturals, as an exact rational. -/
def pyMean (l : List Nat) : Rat := (l.sum : Rat) / (l.length : Rat)

/-- The per-file record produced by the analyzer. -/
structure FileMetrics where
  filename : List Char
  lines_of_code : Nat
  lines_of_comments : Nat
  blank_lines : Nat
  cyclomatic_complexity : Nat
  functions_count : Nat
  max_function_complexity : Nat
  average_function_complexity : Rat
  nested_depth : Nat
deriving DecidableEq, Repr

/-- CodeComplexityAnalyzer.analyze_file. The file read is modelled by an
Option argument: none is a read that raised, and the except branch then
returns the fully zeroed record; some content is a successful read, whose
metrics are computed from the content by the four sub-analyses. -/
def analyze_file (filename : List Char) (readResult : Option (List Char)) : FileMetrics :=
  match readResult with
  | none => ⟨filename, 0, 0, 0, 0, 0, 0, 0, 0⟩
  | some content =>
    let lcb := count_lines (pyReadLines content)
    let functions := find_functions content
    let fcs := functions.map fun f => f.2.1
    ⟨filename, lcb.1, lcb.2.1, lcb.2.2,
      calculate_cyclomatic_complexity content,
      functions.length,
      if functions.isEmpty then 0 else fcs.foldl Nat.max 0,
      if functions.isEmpty then 0 else pyRound2 (pyMean fcs),
      calculate_nesting_depth content⟩

/-- The project-level record produced by the analyzer. -/
structure ProjectMetrics where
  total_files : Nat
  total_loc : Nat
  total_comments : Nat
  total_blank_lines : Nat
  average_complexity : Rat
  max_complexity : Nat
  total_functions : Nat
  files_metrics : List FileMetrics
deriving DecidableEq, Repr

/-- The aggregation tail of CodeComplexityAnalyzer.analyze_project, from
the per-file records of the discovered files (file discovery itself is an
external collaborator): totals over all records, and a complexity
distribution restricted to the records of positive cyclomatic complexity. -/
def analyze_project_metrics (files_metrics : List FileMetrics) : ProjectMetrics :=
  let complexities :=
    (files_metrics.filter fun fm => fm.cyclomatic_complexity > 0).map
      fun fm => fm.cyclomatic_complexity
  let avg_complexity : Rat := if complexities.isEmpty then 0 else pyMean complexities
  ⟨files_metrics.length,
    (files_metrics.map fun fm => fm.lines_of_code).sum,
    (files_metrics.map fun fm => fm.lines_of_comments).sum,
    (files_metrics.map fun fm => fm.blank_lines).sum,
    pyRound2 avg_complexity,
    if complexities.isEmpty then 0 else complexities.foldl Nat.max 0,
    (files_metrics.map fun fm => fm.functions_count).sum,
    files_metrics⟩

example :
    count_lines ["/*".toList, "x() */ y /*".toList, "*/".toList] = (1, 2, 0) := by decide

example : count_lines ["/*".toList, [], "*/".toList] = (0, 2, 1) := by decide

example : (analyze_file "e".toList (some [])).cyclomatic_complexity = 1 := by decide

example :
    (analyze_project_metrics [analyze_file "e".toList (some [])]).average_complexity = 1 := by
  have h : analyze_file "e".toList (some []) = ⟨"e".toList, 0, 0, 0, 1, 0, 0, 0, 0⟩ := by
    decide
  rw [h]
  simp only [analyze_project_metrics]
  norm_num [pyMean, pyRound2, roundHalfEven, ratFloor, List.filter]

/-! Facts about the two-character search used by the block-comment loop. -/

theorem findPair_spec {a b : Char} : ∀ {s : List Char} {i : Nat},
    findPair a b s = some i → s.drop i = a :: b :: s.drop (i + 2) := by
  intro s
  induction s with
  | nil => intro i h; simp [findPair] at h
  | cons c t ih =>
    intro i h
    rw [findPair] at h
    split at h
    · rename_i hs
      injection h with h0
      subst h0
      cases t with
      | nil => simp [startsPair] at hs
      | cons y u =>
        simp only [startsPair, Bool.and_eq_true, decide_eq_true_eq] at hs
        simp [hs.1, hs.2]
    · cases hfp : findPair a b t with
      | none => rw [hfp] at h; simp at h
      | some j =>
        rw [hfp] at h
        simp only [Option.map_some', Option.some.injEq] at h
        subst h
        have hj := ih hfp
        have h3 : j + 1 + 2 = (j + 2) + 1 := by omega
        rw [h3]
        simpa [List.drop_succ_cons] using hj

theorem findPair_le {a b : Char} {s : List Char} {i : Nat}
    (h : findPair a b s = some i) : i + 2 ≤ s.length := by
  have hs := findPair_spec h
  have h1 : (s.drop i).length = s.length - i := List.length_drop i s
  rw [hs] at h1
  have h2 : (s.drop (i + 2)).length = s.length - (i + 2) := List.length_drop (i + 2) s
  simp only [List.length_cons] at h1
  omega

theorem findPair_take {a b : Char} : ∀ {s : List Char} {i : Nat},
    findPair a b s = some i → findPair a b (s.take i) = none := by
  intro s
  induction s with
  | nil => intro i h; simp [findPair] at h
  | cons c t ih =>
    intro i h
    rw [findPair] at h
    split at h
    · injection h with h0
      subst h0
      simp [findPair]
    · rename_i hs
      cases hfp : findPair a b t with
      | none => rw [hfp] at h; simp at h
      | some j =>
        rw [hfp] at h
        simp only [Option.map_some', Option.some.injEq] at h
        subst h
        rw [List.take_succ_cons, findPair]
        split
        · rename_i hs2
          exfalso
          cases hj : t.take j with
          | nil => rw [hj] at hs2; simp [startsPair] at hs2
          | cons y u =>
            rw [hj] at hs2
            simp only [startsPair, Bool.and_eq_true, decide_eq_true_eq] at hs2
            cases t with
            | nil => simp at hj
            | cons d v =>
              cases j with
              | zero => simp at hj
              | succ j2 =>
                rw [List.take_succ_cons] at hj
                injection hj with hy _
                apply hs
                have hd : d = b := by rw [hy]; exact hs2.2
                simp [startsPair, hs2.1, hd]
        · simp [ih hfp]

theorem hasPair_iff {a b : Char} {s : List Char} :
    hasPair a b s = true ↔ ∃ u v, s = u ++ a :: b :: v := by
  constructor
  · intro h
    unfold hasPair at h
    cases hfp : findPair a b s with
    | none => rw [hfp] at h; simp at h
    | some i =>
      refine ⟨s.take i, s.drop (i + 2), ?_⟩
      conv_lhs => rw [← List.take_append_drop i s]
      rw [findPair_spec hfp]
  · rintro ⟨u, v, rfl⟩
    induction u with
    | nil =>
      unfold hasPair
      rw [List.nil_append, findPair]
      split
      · rfl
      · rename_i hs; exact absurd (by simp [startsPair]) hs
    | cons c u2 ih =>
      rw [List.cons_append]
      unfold hasPair
      rw [findPair]
      split
      · rfl
      · simpa [hasPair] using ih

theorem hasPair_cons {a b c : Char} {t : List Char} (h : hasPair a b t = true) :
    hasPair a b (c :: t) = true := by
  rcases hasPair_iff.mp h with ⟨u, v, rfl⟩
  exact hasPair_iff.mpr ⟨c :: u, v, rfl⟩

theorem hasPair_append_left {a b : Char} {xs : List Char} (ys : List Char)
    (h : hasPair a b xs = true) : hasPair a b (xs ++ ys) = true := by
  rcases hasPair_iff.mp h with ⟨u, v, rfl⟩
  exact hasPair_iff.mpr ⟨u, v ++ ys, by simp⟩

theorem hasPair_append_right {a b : Char} (xs : List Char) {ys : List Char}
    (h : hasPair a b ys = true) : hasPair a b (xs ++ ys) = true := by
  rcases hasPair_iff.mp h with ⟨u, v, rfl⟩
  exact hasPair_iff.mpr ⟨xs ++ u, v, by simp⟩

theorem hasPair_boundary {a b : Char} : ∀ {xs : List Char} {ys : List Char},
    xs.getLast? = some a → ys.head? = some b → hasPair a b (xs ++ ys) = true := by
  intro xs
  induction xs with
  | nil => intro ys h1 _; simp at h1
  | cons c t ih =>
    intro ys h1 h2
    cases t with
    | nil =>
      simp at h1
      cases ys with
      | nil => simp at h2
      | cons y v =>
        simp at h2
        subst h1
        subst h2
        exact hasPair_iff.mpr ⟨[], v, rfl⟩
    | cons d u =>
      rw [List.getLast?_cons_cons] at h1
      rw [List.cons_append]
      exact hasPair_cons (ih h1 h2)

theorem hasPair_append_cases {a b : Char} : ∀ (xs ys : List Char),
    hasPair a b (xs ++ ys) = true →
      hasPair a b xs = true ∨ hasPair a b ys = true ∨
        (xs.getLast? = some a ∧ ys.head? = some b) := by
  intro xs
  induction xs with
  | nil => intro ys h; right; left; simpa using h
  | cons c t ih =>
    intro ys h
    cases t with
    | nil =>
      rw [List.cons_append, List.nil_append] at h
      unfold hasPair at h
      rw [findPair] at h
      split at h
      · rename_i hs
        cases ys with
        | nil => simp [startsPair] at hs
        | cons y u =>
          simp only [startsPair, Bool.and_eq_true, decide_eq_true_eq] at hs
          right; right
          simp [hs.1, hs.2]
      · right; left
        simpa [hasPair] using h
    | cons d u =>
      rw [List.cons_append] at h
      unfold hasPair at h
      rw [findPair] at h
      split at h
      · rename_i hs
        left
        unfold hasPair
        rw [findPair]
        split
        · rfl
        · rename_i hs2
          exfalso
          apply hs2
          rw [List.cons_append] at hs
          simpa [startsPair] using hs
      · have h2 : hasPair a b ((d :: u) ++ ys) = true := by simpa [hasPair] using h
        rcases ih ys h2 with h3 | h3 | h3
        · left; exact hasPair_cons h3
        · right; left; exact h3
        · right; right
          rw [List.getLast?_cons_cons]
          exact h3

/-! Behavior of the block-comment removal loop. -/

theorem removeBlockGo_succ (f : Nat) (s : List Char) :
    removeBlockGo (f + 1) s =
      match findPair '/' '*' s with
      | none => s
      | some start =>
        match findPair '*' '/' (s.drop start) with
        | none => s.take start
        | some off => removeBlockGo f (s.take start ++ s.drop (start + off + 2)) := rfl

theorem removeBlockGo_eq_self {f : Nat} {s : List Char}
    (h : findPair '/' '*' s = none) : removeBlockGo (f + 1) s = s := by
  simp [removeBlockGo_succ, h]

theorem removeBlockGo_eq_trunc {f : Nat} {s : List Char} {start : Nat}
    (h1 : findPair '/' '*' s = some start)
    (h2 : findPair '*' '/' (s.drop start) = none) :
    removeBlockGo (f + 1) s = s.take start := by
  simp [removeBlockGo_succ, h1, h2]

theorem removeBlockGo_eq_step {f : Nat} {s : List Char} {start off : Nat}
    (h1 : findPair '/' '*' s = some start)
    (h2 : findPair '*' '/' (s.drop start) = some off) :
    removeBlockGo (f + 1) s = removeBlockGo f (s.take start ++ s.drop (start + off + 2)) := by
  simp [removeBlockGo_succ, h1, h2]

theorem removeBlockGo_no_open : ∀ (f : Nat) (s : List Char), s.length < f →
    findPair '/' '*' (removeBlockGo f s) = none := by
  intro f
  induction f with
  | zero => intro s h; exact absurd h (Nat.not_lt_zero _)
  | succ f ih =>
    intro s h
    cases hfp : findPair '/' '*' s with
    | none => rw [removeBlockGo_eq_self hfp]; exact hfp
    | some start =>
      cases hcl : findPair '*' '/' (s.drop start) with
      | none => rw [removeBlockGo_eq_trunc hfp hcl]; exact findPair_take hfp
      | some off =>
        rw [removeBlockGo_eq_step hfp hcl]
        apply ih
        have h1 := findPair_le hfp
        have h2 := findPair_le hcl
        rw [List.length_drop] at h2
        rw [List.length_append, List.length_take, List.length_drop]
        omega

theorem removeBlockGo_length : ∀ (f : Nat) (s : List Char),
    (removeBlockGo f s).length ≤ s.length := by
  intro f
  induction f with
  | zero => intro s; exact Nat.le_refl _
  | succ f ih =>
    intro s
    cases hfp : findPair '/' '*' s with
    | none => rw [removeBlockGo_eq_self hfp]
    | some start =>
      cases hcl : findPair '*' '/' (s.drop start) with
      | none =>
        rw [removeBlockGo_eq_trunc hfp hcl]
        simp
      | some off =>
        rw [removeBlockGo_eq_step hfp hcl]
        refine le_trans (ih _) ?_
        rw [List.length_append, List.length_take, List.length_drop]
        have h1 := findPair_le hfp
        omega

theorem mem_removeBlockGo : ∀ (f : Nat) (s : List Char) {c : Char},
    c ∈ removeBlockGo f s → c ∈ s := by
  intro f
  induction f with
  | zero => intro s c h; exact h
  | succ f ih =>
    intro s c h
    cases hfp : findPair '/' '*' s with
    | none => rw [removeBlockGo_eq_self hfp] at h; exact h
    | some start =>
      cases hcl : findPair '*' '/' (s.drop start) with
      | none =>
        rw [removeBlockGo_eq_trunc hfp hcl] at h
        exact List.mem_of_mem_take h
      | some off =>
        rw [removeBlockGo_eq_step hfp hcl] at h
        rcases List.mem_append.mp (ih _ h) with h2 | h2
        · exact List.mem_of_mem_take h2
        · exact List.mem_of_mem_drop h2

theorem removeBlockGo_noDD : ∀ (f : Nat) (s : List Char),
    hasPair '/' '/' s = false → hasPair '/' '/' (removeBlockGo f s) = false := by
  intro f
  induction f with
  | zero => intro s h; exact h
  | succ f ih =>
    intro s h
    cases hfp : findPair '/' '*' s with
    | none => rw [removeBlockGo_eq_self hfp]; exact h
    | some start =>
      cases hcl : findPair '*' '/' (s.drop start) with
      | none =>
        rw [removeBlockGo_eq_trunc hfp hcl]
        rcases Bool.eq_false_or_eq_true (hasPair '/' '/' (s.take start)) with hval | hval
        swap
        · exact hval
        · exfalso
          have h2 := hasPair_append_left (s.drop start) hval
          rw [List.take_append_drop] at h2
          rw [h2] at h
          exact Bool.noConfusion h
      | some off =>
        rw [removeBlockGo_eq_step hfp hcl]
        apply ih
        rcases Bool.eq_false_or_eq_true
            (hasPair '/' '/' (s.take start ++ s.drop (start + off + 2))) with hval | hval
        swap
        · exact hval
        · exfalso
          rcases hasPair_append_cases _ _ hval with h1 | h1 | h1
          · have h2 := hasPair_append_left (s.drop start) h1
            rw [List.take_append_drop] at h2
            rw [h2] at h
            exact Bool.noConfusion h
          · have h2 := hasPair_append_right (s.take (start + off + 2)) h1
            rw [List.take_append_drop] at h2
            rw [h2] at h
            exact Bool.noConfusion h
          · have hdrop := findPair_spec hfp
            have hb : hasPair '/' '/' (s.take start ++ s.drop start) = true := by
              apply hasPair_boundary h1.1
              rw [hdrop]
              rfl
            rw [List.take_append_drop] at hb
            rw [hb] at h
            exact Bool.noConfusion h

/-! Behavior of line-comment removal. -/

theorem skipLine_length : ∀ s : List Char, (skipLine s).length ≤ s.length := by
  intro s
  induction s with
  | nil => exact Nat.le_refl _
  | cons c t ih =>
    rw [skipLine]
    split
    · exact Nat.le_refl _
    · exact le_trans ih (Nat.le_succ _)

theorem skipLine_head : ∀ (s : List Char) {c : Char},
    (skipLine s).head? = some c → c = '\n' := by
  intro s
  induction s with
  | nil => intro c h; simp [skipLine] at h
  | cons d t ih =>
    intro c h
    rw [skipLine] at h
    revert h
    split
    · rename_i hd
      intro h
      simp at h
      rw [← h]
      exact hd
    · exact fun h => ih h

theorem mem_skipLine : ∀ (s : List Char) {c : Char}, c ∈ skipLine s → c ∈ s := by
  intro s
  induction s with
  | nil => intro c h; exact h
  | cons d t ih =>
    intro c h
    rw [skipLine] at h
    revert h
    split
    · exact fun h => h
    · exact fun h => List.mem_cons_of_mem d (ih h)

theorem removeLCGo_head : ∀ (f : Nat) (s : List Char) {c : Char},
    (removeLCGo f s).head? = some c → s.head? = some c ∨ c = '\n' := by
  intro f
  induction f with
  | zero => intro s c h; left; exact h
  | succ f ih =>
    intro s c h
    cases s with
    | nil => simp [removeLCGo] at h
    | cons d t =>
      rw [removeLCGo] at h
      revert h
      split
      · intro h
        rcases ih _ h with h2 | h2
        · right; exact skipLine_head _ h2
        · right; exact h2
      · intro h
        left
        simpa using h

theorem hasPair_cons_false {a b c : Char} {t : List Char}
    (h : hasPair a b (c :: t) = false) :
    hasPair a b t = false ∧ startsPair a b (c :: t) = false := by
  unfold hasPair at h ⊢
  rw [findPair] at h
  revert h
  split
  · intro h; exact absurd h (by simp)
  · rename_i hs
    intro h
    exact ⟨by simpa using h, by simpa using hs⟩

theorem removeLCGo_noDD : ∀ (f : Nat) (s : List Char), s.length < f →
    hasPair '/' '/' (removeLCGo f s) = false := by
  intro f
  induction f with
  | zero => intro s h; exact absurd h (Nat.not_lt_zero _)
  | succ f ih =>
    intro s h
    cases s with
    | nil => rw [removeLCGo]; rfl
    | cons c t =>
      rw [removeLCGo]
      split
      · apply ih
        have h1 := skipLine_length t
        simp only [List.length_cons] at h
        omega
      · rename_i hc
        have hlen : t.length < f := by simp only [List.length_cons] at h; omega
        have hr := ih t hlen
        rcases Bool.eq_false_or_eq_true (hasPair '/' '/' (c :: removeLCGo f t)) with hval | hval
        · exfalso
          unfold hasPair at hval
          rw [findPair] at hval
          revert hval
          split
          · rename_i hsp
            intro _
            cases hrl : removeLCGo f t with
            | nil => rw [hrl] at hsp; simp [startsPair] at hsp
            | cons d r =>
              rw [hrl] at hsp
              simp only [startsPair, Bool.and_eq_true, decide_eq_true_eq] at hsp
              have hhead : (removeLCGo f t).head? = some '/' := by
                rw [hrl, hsp.2]; rfl
              rcases removeLCGo_head f t hhead with h2 | h2
              · exact hc ⟨hsp.1, h2⟩
              · exact absurd h2 (by decide)
          · intro hval
            rw [hasPair] at hr
            cases hfp2 : findPair '/' '/' (removeLCGo f t) with
            | none => rw [hfp2] at hval; simp at hval
            | some j => rw [hfp2] at hr; simp at hr
        · exact hval

theorem removeLCGo_id : ∀ (f : Nat) (s : List Char),
    hasPair '/' '/' s = false → removeLCGo f s = s := by
  intro f
  induction f with
  | zero => intro s _; rfl
  | succ f ih =>
    intro s h
    cases s with
    | nil => rfl
    | cons c t =>
      obtain ⟨ht, hsp⟩ := hasPair_cons_false h
      rw [removeLCGo]
      split
      · rename_i hc
        exfalso
        obtain ⟨hc1, hc2⟩ := hc
        cases t with
        | nil => simp at hc2
        | cons d u =>
          simp only [List.head?_cons, Option.some.injEq] at hc2
          rw [hc1, hc2] at hsp
          simp [startsPair] at hsp
      · rw [ih t ht]

theorem mem_removeLCGo : ∀ (f : Nat) (s : List Char) {c : Char},
    c ∈ removeLCGo f s → c ∈ s := by
  intro f
  induction f with
  | zero => intro s c h; exact h
  | succ f ih =>
    intro s c h
    cases s with
    | nil => rw [removeLCGo] at h; exact h
    | cons d t =>
      rw [removeLCGo] at h
      revert h
      split
      · intro h
        exact List.mem_cons_of_mem d (mem_skipLine t (ih _ h))
      · intro h
        rcases List.mem_cons.mp h with h2 | h2
        · exact List.mem_cons.mpr (Or.inl h2)
        · exact List.mem_cons_of_mem d (ih _ h2)

theorem removeStrGo_id (q : Char) : ∀ (f : Nat) (s : List Char),
    q ∉ s → removeStrGo q f s = s := by
  intro f
  induction f with
  | zero => intro s _; rfl
  | succ f ih =>
    intro s h
    cases s with
    | nil => rfl
    | cons c t =>
      have hc : ¬(c = q) := fun hcq => h (by subst hcq; exact List.mem_cons_self _ _)
      rw [removeStrGo]
      split
      · rename_i hcq; exact absurd hcq hc
      · rw [ih t (fun hm => h (List.mem_cons_of_mem c hm))]

/-! The strip pipeline on quote-free text. -/

theorem strip_eq_of_quote_free {t : List Char} (h1 : dquote ∉ t) (h2 : squote ∉ t) :
    remove_comments_and_strings t = removeBlock (removeLC t) := by
  unfold remove_comments_and_strings
  rw [removeDq, removeStrGo_id dquote _ _ h1, removeSq, removeStrGo_id squote _ _ h2]

/-- C5 (amended): the Lexical Stripper is a fixed point on its own output
for every input that contains no double-quote and no single-quote
character: applying remove_comments_and_strings to its own output returns
that output unchanged. (On inputs with quote characters the fixed-point
property can fail, see the counterexample.) -/
theorem C5_amended_thm (t : List Char) (h1 : dquote ∉ t) (h2 : squote ∉ t) :
    remove_comments_and_strings (remove_comments_and_strings t) =
      remove_comments_and_strings t := by
  have hu : hasPair '/' '/' (removeLC t) = false :=
    removeLCGo_noDD _ t (Nat.lt_succ_self _)
  have hv : hasPair '/' '/' (removeBlock (removeLC t)) = false :=
    removeBlockGo_noDD _ _ hu
  have hopen : findPair '/' '*' (removeBlock (removeLC t)) = none :=
    removeBlockGo_no_open _ _ (Nat.lt_succ_self _)
  have hkey : remove_comments_and_strings t = removeBlock (removeLC t) :=
    strip_eq_of_quote_free h1 h2
  have hq1 : dquote ∉ removeBlock (removeLC t) := fun hm =>
    h1 (mem_removeLCGo _ _ (mem_removeBlockGo _ _ hm))
  have hq2 : squote ∉ removeBlock (removeLC t) := fun hm =>
    h2 (mem_removeLCGo _ _ (mem_removeBlockGo _ _ hm))
  rw [hkey]
  unfold remove_comments_and_strings
  rw [removeDq, removeStrGo_id dquote _ _ hq1, removeSq, removeStrGo_id squote _ _ hq2,
    removeLC, removeLCGo_id _ _ hv, removeBlock, removeBlockGo_eq_self hopen]

/-- C5 counterexample: on the nine-character input consisting of a
double-quoted region whose body holds an opening comment marker, a
backslash-newline and a closing marker, the Lexical Stripper is not
idempotent: one application yields a three-character quoted remnant, a
second application collapses it further. -/
theorem C5_counterexample :
    remove_comments_and_strings
        (remove_comments_and_strings ("\x22x/*\\\n*/\x22".toList)) ≠
      remove_comments_and_strings ("\x22x/*\\\n*/\x22".toList) := by decide

/-- Witness for C5 (amended) at a concrete quote-free input holding a block
comment and a line comment. -/
theorem C5_witness :
    remove_comments_and_strings
        (remove_comments_and_strings ("a = b; /* note\nmore */ c // tail\nd".toList)) =
      remove_comments_and_strings ("a = b; /* note\nmore */ c // tail\nd".toList) :=
  C5_amended_thm _ (by decide) (by decide)

/-- C10: the block-comment removal loop of the Lexical Stripper terminates
(the model is a total function whose loop body strictly shortens the text,
witnessed by the length bound), and the text it returns contains no
occurrence of the opening marker slash-star. -/
theorem C10_no_opening_marker (content : List Char) :
    findPair '/' '*' (remove_comments_and_strings content) = none ∧
      (remove_comments_and_strings content).length ≤
        (removeLC (removeSq (removeDq content))).length := by
  constructor
  · exact removeBlockGo_no_open _ _ (Nat.lt_succ_self _)
  · exact removeBlockGo_length _ _

/-- C6 (amended): if, after string removal and line-comment removal, the
first opening marker slash-star of the text has no closing marker
star-slash at or after it, then the Lexical Stripper returns that text
truncated immediately before the opening marker, raising no exception. -/
theorem C6_amended_thm (t : List Char) (i : Nat)
    (hopen : findPair '/' '*' (removeLC (removeSq (removeDq t))) = some i)
    (hnoclose : findPair '*' '/' ((removeLC (removeSq (removeDq t))).drop i) = none) :
    remove_comments_and_strings t = (removeLC (removeSq (removeDq t))).take i := by
  unfold remove_comments_and_strings removeBlock
  exact removeBlockGo_eq_trunc hopen hnoclose

/-- C6 counterexample: in the input slash-slash-space-slash-star-x-newline-Y
the text after string removal has its opening marker at index three with no
closing marker after it, yet the Stripper output is not that text truncated
before the marker, because line-comment removal deletes the marker first. -/
theorem C6_counterexample :
    findPair '/' '*' (removeSq (removeDq ("// /*x\nY".toList))) = some 3 ∧
      findPair '*' '/' ((removeSq (removeDq ("// /*x\nY".toList))).drop 3) = none ∧
      remove_comments_and_strings ("// /*x\nY".toList) ≠
        (removeSq (removeDq ("// /*x\nY".toList))).take 3 := by
  refine ⟨by decide, by decide, by decide⟩

/-- Witness for C6 (amended): a ten-line file whose fifth line opens an
unterminated block comment is truncated to its first four lines. -/
theorem C6_witness :
    remove_comments_and_strings ("aaa\nbbb\nccc\nddd\n/* open\nf\ng\nh\ni\nj".toList) =
      (removeLC (removeSq (removeDq
        ("aaa\nbbb\nccc\nddd\n/* open\nf\ng\nh\ni\nj".toList)))).take 16 :=
  C6_amended_thm _ 16 (by decide) (by decide)

/-! The line classifier. -/

theorem classifyStep_sum (st : (Nat × Nat × Nat) × Bool) (l : List Char) :
    (classifyStep st l).1.1 + (classifyStep st l).1.2.1 + (classifyStep st l).1.2.2 =
      st.1.1 + st.1.2.1 + st.1.2.2 + 1 := by
  by_cases hb : (pyStrip l).isEmpty = true <;>
    by_cases h1 : hasPair '/' '*' (pyStrip l) = true <;>
      by_cases h2 : hasPair '*' '/' (pyStrip l) = true <;>
        by_cases hf : fullCommentLine (pyStrip l) = true <;>
          by_cases hs : st.2 = true <;>
            by_cases hd : startsPair '/' '/' (pyStrip l) = true <;>
              simp [classifyStep, hb, h1, h2, hf, hs, hd] <;> omega

theorem count_lines_fold_sum : ∀ (lines : List (List Char)) (st : (Nat × Nat × Nat) × Bool),
    (lines.foldl classifyStep st).1.1 + (lines.foldl classifyStep st).1.2.1 +
        (lines.foldl classifyStep st).1.2.2 =
      st.1.1 + st.1.2.1 + st.1.2.2 + lines.length := by
  intro lines
  induction lines with
  | nil => intro st; simp
  | cons l ls ih =>
    intro st
    rw [List.foldl_cons, ih (classifyStep st l), classifyStep_sum]
    simp only [List.length_cons]
    omega

/-- C2: the three counters of the Line Classifier partition the physical
lines of every file exactly: code plus comment plus blank equals the
number of physical lines, each line being counted exactly once. -/
theorem C2_partition (lines : List (List Char)) :
    (count_lines lines).1 + (count_lines lines).2.1 + (count_lines lines).2.2 =
      lines.length := by
  unfold count_lines
  simpa using count_lines_fold_sum lines ((0, 0, 0), false)

/-- C9: every non-blank line that contains the closing marker star-slash
but no opening marker slash-star is counted as a comment line and clears
the inside-block-comment flag, whatever the flag was before, so an
ordinary code line holding star-slash is classified as a comment. -/
theorem C9_closing_line_is_comment (loc comments blank : Nat) (flag : Bool)
    (rawLine : List Char) (hnb : pyStrip rawLine ≠ [])
    (hcl : hasPair '*' '/' (pyStrip rawLine) = true)
    (hop : hasPair '/' '*' (pyStrip rawLine) = false) :
    classifyStep ((loc, comments, blank), flag) rawLine =
      ((loc, comments + 1, blank), false) := by
  have hne : (pyStrip rawLine).isEmpty = false := by
    cases hpl : pyStrip rawLine with
    | nil => exact absurd hpl hnb
    | cons a b => rfl
  unfold classifyStep
  simp [hne, hcl, hop]

/-- Witness for C9: a code-looking line that merely contains a closing
marker is counted as a comment and resets the flag from false to false. -/
theorem C9_witness :
    classifyStep ((0, 0, 0), false) (" end */ tail".toList) = ((0, 1, 0), false) := by
  rw [C9_closing_line_is_comment 0 0 0 false _ (by decide) (by decide) (by decide)]

/-- C3 (amended): while the inside-block-comment flag is true, every
non-blank line that does not contain both markers is counted as a comment;
the resulting flag is false exactly when the line contains the closing
marker. Lines containing both markers are classified by the mixed-line
rule without consulting the flag, and blank lines still count as blank. -/
theorem C3_amended_thm (loc comments blank : Nat) (rawLine : List Char)
    (hnb : pyStrip rawLine ≠ [])
    (hnotboth : ¬(hasPair '/' '*' (pyStrip rawLine) = true ∧
      hasPair '*' '/' (pyStrip rawLine) = true)) :
    classifyStep ((loc, comments, blank), true) rawLine =
      ((loc, comments + 1, blank), !hasPair '*' '/' (pyStrip rawLine)) := by
  have hne : (pyStrip rawLine).isEmpty = false := by
    cases hpl : pyStrip rawLine with
    | nil => exact absurd hpl hnb
    | cons a b => rfl
  unfold classifyStep
  rcases Bool.eq_false_or_eq_true (hasPair '/' '*' (pyStrip rawLine)) with h1 | h1
  · have h2 : hasPair '*' '/' (pyStrip rawLine) = false := by
      rcases Bool.eq_false_or_eq_true (hasPair '*' '/' (pyStrip rawLine)) with h2 | h2
      · exact absurd ⟨h1, h2⟩ hnotboth
      · exact h2
    simp [hne, h1, h2]
  · rcases Bool.eq_false_or_eq_true (hasPair '*' '/' (pyStrip rawLine)) with h2 | h2
    · simp [hne, h1, h2]
    · simp [hne, h1, h2]

/-- C3 counterexample: with the flag raised by an opening line, the line
x() star-slash y slash-star, which contains both markers around code, is
counted as a code line even though the flag is true, and its closing
marker does not clear the flag; the three-line file with that middle line
therefore counts one code line and two comment lines. -/
theorem C3_counterexample :
    (classifyStep ((0, 0, 0), false) ("/*".toList)).2 = true ∧
      count_lines ["/*".toList, "x() */ y /*".toList, "*/".toList] = (1, 2, 0) := by
  refine ⟨by decide, by decide⟩

/-- Witness for C3 (amended) at a plain text line while the flag is true. -/
theorem C3_witness :
    classifyStep ((0, 0, 0), true) ("hello".toList) = ((0, 1, 0), true) := by
  rw [C3_amended_thm 0 0 0 _ (by decide) (by decide)]
  decide

/-- C7: on the text if (x) brace if (y) brace z(); close close, the
Complexity Counter reports cyclomatic complexity three (the base path plus
two matches of the if pattern) and the Nesting Analyzer reports a maximum
brace depth of two. -/
theorem C7_concrete :
    calculate_cyclomatic_complexity ("if (x) \x7b if (y) \x7b z(); \x7d \x7d".toList) = 3 ∧
      calculate_nesting_depth ("if (x) \x7b if (y) \x7b z(); \x7d \x7d".toList) = 2 := by
  refine ⟨by decide, by decide⟩

/-- C8: when the file read raises, analyze_file catches the error and
returns a record for that file with every numeric field zero instead of
propagating the exception, so the failure stays contained in that file. -/
theorem C8_read_failure_zeroed (filename : List Char) :
    (analyze_file filename none).lines_of_code = 0 ∧
      (analyze_file filename none).lines_of_comments = 0 ∧
      (analyze_file filename none).blank_lines = 0 ∧
      (analyze_file filename none).cyclomatic_complexity = 0 ∧
      (analyze_file filename none).functions_count = 0 ∧
      (analyze_file filename none).max_function_complexity = 0 ∧
      (analyze_file filename none).average_function_complexity = 0 ∧
      (analyze_file filename none).nested_depth = 0 ∧
      (analyze_file filename none).filename = filename :=
  ⟨rfl, rfl, rfl, rfl, rfl, rfl, rfl, rfl, rfl⟩

/-- C1 counterexample: on the text that is exactly the single line named
by the claim, find_functions records no function at all, because the
brace-count closure test runs only on lines following the header; and on
that line followed by a newline it records one function whose body line
count is two, not one. -/
theorem C1_counterexample :
    find_functions ("int add(int a, int b) \x7b return a + b; \x7d".toList) = [] ∧
      find_functions ("int add(int a, int b) \x7b return a + b; \x7d\n".toList) =
        [("add".toList, 1, 2)] := by
  refine ⟨by decide, by decide⟩

/-- C1 (amended): on the add line followed by a newline, the Function
Extractor yields exactly one record, named add, with complexity one and a
body line count of two (the header line plus the empty split piece after
the final newline); on the bare line without a trailing newline it yields
no record, since a header line that already balances its braces is closed
only when a following line exists. -/
theorem C1_amended_thm :
    (find_functions ("int add(int a, int b) \x7b return a + b; \x7d\n".toList)).length = 1 ∧
      (find_functions ("int add(int a, int b) \x7b return a + b; \x7d\n".toList)).head? =
        some ("add".toList, 1, 2) ∧
      find_functions ("int add(int a, int b) \x7b return a + b; \x7d".toList) = [] := by
  refine ⟨by decide, by decide, by decide⟩

/-- C4 counterexample: an empty but readable file receives cyclomatic
complexity one (the base path), so it is included in the complexity
distribution: a project holding only that file has average and maximum
complexity one, not the zero that exclusion of empty files would give. -/
theorem C4_counterexample :
    (analyze_file "empty.cpp".toList (some [])).cyclomatic_complexity = 1 ∧
      (analyze_project_metrics
          [analyze_file "empty.cpp".toList (some [])]).average_complexity = 1 ∧
      (analyze_project_metrics
          [analyze_file "empty.cpp".toList (some [])]).max_complexity = 1 := by
  have h : analyze_file "empty.cpp".toList (some []) =
      ⟨"empty.cpp".toList, 0, 0, 0, 1, 0, 0, 0, 0⟩ := by decide
  refine ⟨by decide, ?_, by decide⟩
  rw [h]
  simp only [analyze_project_metrics]
  norm_num [pyMean, pyRound2, roundHalfEven, ratFloor, List.filter]

/-- C4 (amended): the project average and maximum complexity are computed
only over per-file records of positive cyclomatic complexity — dropping a
zero-complexity record changes neither — while total_files counts every
record; and the zero-complexity records are exactly the failed reads,
because any successfully read file, even an empty one, has cyclomatic
complexity at least one. -/
theorem C4_amended_thm (fm : FileMetrics) (fms : List FileMetrics)
    (h : fm.cyclomatic_complexity = 0) :
    (analyze_project_metrics (fm :: fms)).average_complexity =
        (analyze_project_metrics fms).average_complexity ∧
      (analyze_project_metrics (fm :: fms)).max_complexity =
        (analyze_project_metrics fms).max_complexity ∧
      (analyze_project_metrics (fm :: fms)).total_files = fms.length + 1 ∧
      ∀ nm content : List Char, 1 ≤ (analyze_file nm (some content)).cyclomatic_complexity := by
  have hfilter : (fm :: fms).filter (fun x => x.cyclomatic_complexity > 0) =
      fms.filter (fun x => x.cyclomatic_complexity > 0) := by
    rw [List.filter_cons]
    simp [h]
  refine ⟨?_, ?_, ?_, ?_⟩
  · simp only [analyze_project_metrics, hfilter]
  · simp only [analyze_project_metrics, hfilter]
  · simp only [analyze_project_metrics, List.length_cons]
  · intro nm content
    simp only [analyze_file, calculate_cyclomatic_complexity]
    omega

/-- Witness for C4 (amended) at a concrete failed read prepended to a
concrete successful read. -/
theorem C4_witness :
    (analyze_file "f.cpp".toList none).cyclomatic_complexity = 0 ∧
      ((analyze_project_metrics (analyze_file "f.cpp".toList none ::
            [analyze_file "empty.cpp".toList (some [])])).average_complexity =
          (analyze_project_metrics
            [analyze_file "empty.cpp".toList (some [])]).average_complexity ∧
        (analyze_project_metrics (analyze_file "f.cpp".toList none ::
            [analyze_file "empty.cpp".toList (some [])])).max_complexity =
          (analyze_project_metrics
            [analyze_file "empty.cpp".toList (some [])]).max_complexity ∧
        (analyze_project_metrics (analyze_file "f.cpp".toList none ::
            [analyze_file "empty.cpp".toList (some [])])).total_files =
          [analyze_file "empty.cpp".toList (some [])].length + 1 ∧
        ∀ nm content : List Char,
          1 ≤ (analyze_file nm (some content)).cyclomatic_complexity) :=
  ⟨by decide, C4_amended_thm _ _ (by decide)⟩
